import Mathlib

/-!
Verification of the telemetry reconciliation core of the motor-monitoring
dashboard (source: src/motor-speed-frontend/src/components/MainDashboard.tsx,
mirrored in src/unnamed/part_000).

The embedding models the buffer of motor readings as a Lean list (newest
first, as in the React state array), the alert registry as a list of alerts,
and each state-updater closure from the source as a pure function from the
old state (plus the event payload) to the new state.  JavaScript numbers are
used here only through order comparisons, so they are modelled as Int;
identifiers and timestamps are compared with strict string equality in the
source and are modelled as String.
-/

/-- One motor reading.  The record type lives in src/../types (not part of
the provided sources); the fields below are the ones the reconciliation core
reads, reconstructed from their use in MainDashboard.tsx (`r.id`,
`r.timestamp`, `r.speed`, `r.temperature`) and spec section 3.  The ~25
optional secondary sensor fields are purely presentational and are read by
no operation modelled here. -/
structure MotorReading where
  id : String
  timestamp : String
  speed : Int
  temperature : Int
deriving DecidableEq

/-- One alert.  Fields per spec section 3 and their use in MainDashboard.tsx
(`alert.id`, `alert.acknowledged`, spread of the remaining fields). -/
structure Alert where
  id : String
  message : String
  acknowledged : Bool
  createdAt : String
deriving DecidableEq

/-- JavaScript `Array.prototype.findIndex`: index of the first element
satisfying the predicate; the JS sentinel -1 is modelled as `none`. -/
def findIndex (p : α → Bool) : List α → Option Nat
  | [] => none
  | a :: l => if p a then some 0 else (findIndex p l).map (· + 1)

/-- The `hub.on("NewReading")` state updater (MainDashboard.tsx lines
195-223): if an entry with the incoming id exists, replace it in place;
else if an entry with the incoming timestamp exists, replace that one in
place; else prepend and truncate to `maxReadings` (`slice(0, maxReadings)`
with a non-negative bound is `List.take`).  The source checks the
duplicate-timestamp entry with `find` and then recomputes its position with
`findIndex` over the same predicate; the two scans are collapsed into the
single `findIndex` match below. -/
def upsert (r : List MotorReading) (reading : MotorReading) (maxReadings : Nat) :
    List MotorReading :=
  match findIndex (fun existing => existing.id == reading.id) r with
  | some existingIndex => r.set existingIndex reading
  | none =>
    match findIndex (fun existing => existing.timestamp == reading.timestamp) r with
    | some timestampIndex => r.set timestampIndex reading
    | none => (reading :: r).take maxReadings

/-- The snapshot-fetch continuation (MainDashboard.tsx lines 164-173):
`setReadings(res.data)` replaces the whole buffer with the fetched list,
whatever the buffer held at that moment. -/
def applySnapshot (data : List MotorReading) (_oldReadings : List MotorReading) :
    List MotorReading :=
  data

/-- A whole stream of push readings folded through `upsert`, oldest event
first, starting from buffer `b`. -/
def upserts (maxReadings : Nat) (b : List MotorReading) (incoming : List MotorReading) :
    List MotorReading :=
  incoming.foldl (fun buf x => upsert buf x maxReadings) b

/-- `readings.reduce((a, b) => a.temperature > b.temperature ? a : b)`
guarded by `readings.length` (MainDashboard.tsx lines 128-131). -/
def highestTemp (readings : List MotorReading) : Option MotorReading :=
  match readings with
  | [] => none
  | a :: rest =>
    some (rest.foldl (fun a b => if a.temperature > b.temperature then a else b) a)

/-- `readings.reduce((a, b) => a.temperature < b.temperature ? a : b)`
(MainDashboard.tsx lines 132-134). -/
def lowestTemp (readings : List MotorReading) : Option MotorReading :=
  match readings with
  | [] => none
  | a :: rest =>
    some (rest.foldl (fun a b => if a.temperature < b.temperature then a else b) a)

/-- `readings.reduce((a, b) => a.speed > b.speed ? a : b)`
(MainDashboard.tsx lines 135-137). -/
def highestRpm (readings : List MotorReading) : Option MotorReading :=
  match readings with
  | [] => none
  | a :: rest =>
    some (rest.foldl (fun a b => if a.speed > b.speed then a else b) a)

/-- `readings.reduce((a, b) => a.speed < b.speed ? a : b)`
(MainDashboard.tsx lines 138-140). -/
def lowestRpm (readings : List MotorReading) : Option MotorReading :=
  match readings with
  | [] => none
  | a :: rest =>
    some (rest.foldl (fun a b => if a.speed < b.speed then a else b) a)

/-- `acknowledgeAlert` (MainDashboard.tsx lines 154-161): map over the
registry, setting `acknowledged` on the entry whose id matches. -/
def acknowledgeAlert (prev : List Alert) (alertId : String) : List Alert :=
  prev.map (fun alert =>
    if alert.id == alertId then { alert with acknowledged := true } else alert)

/-- The `hub.on("NewAlert")` state updater (MainDashboard.tsx lines
233-243): drop the event if an alert with the same id is already present,
else prepend. -/
def addAlert (prev : List Alert) (alert : Alert) : List Alert :=
  match prev.find? (fun a => a.id == alert.id) with
  | some _ => prev
  | none => alert :: prev

/-- `nextRetryDelayInMilliseconds` (MainDashboard.tsx lines 180-188):
0 ms on the first retry, otherwise `min(1000 * 2^n, 30000)`. -/
def nextRetryDelayInMilliseconds (previousRetryCount : Nat) : Nat :=
  if previousRetryCount == 0 then 0
  else min (1000 * 2 ^ previousRetryCount) 30000

/-- No two buffer entries share an id. -/
abbrev idsUnique (l : List MotorReading) : Prop :=
  (l.map MotorReading.id).Nodup

/-- No two buffer entries share a timestamp. -/
abbrev timestampsUnique (l : List MotorReading) : Prop :=
  (l.map MotorReading.timestamp).Nodup

/-- An upsert step is benign for timestamp uniqueness: whenever it will be
routed to the id-match branch, its timestamp does not collide with any
other entry. -/
abbrev goodStep (buf : List MotorReading) (x : MotorReading) : Prop :=
  (∃ e ∈ buf, e.id = x.id) → ∀ e ∈ buf, e.id ≠ x.id → e.timestamp ≠ x.timestamp

/-- Every step of the stream is benign (relative to the buffer it is
applied to). -/
def goodSeq (c : Nat) : List MotorReading → List MotorReading → Prop
  | _, [] => True
  | buf, x :: xs => goodStep buf x ∧ goodSeq c (upsert buf x c) xs

def goodSeqDec (c : Nat) : (buf xs : List MotorReading) → Decidable (goodSeq c buf xs)
  | _, [] => .isTrue trivial
  | buf, x :: xs =>
    haveI : Decidable (goodSeq c (upsert buf x c) xs) := goodSeqDec c (upsert buf x c) xs
    inferInstanceAs (Decidable (goodStep buf x ∧ goodSeq c (upsert buf x c) xs))

instance (c : Nat) (buf xs : List MotorReading) : Decidable (goodSeq c buf xs) :=
  goodSeqDec c buf xs

/-- The step function of the max-selecting reduce callbacks
(`(a, b) => key(a) > key(b) ? a : b`), abstracted over the compared key. -/
def selMax (k : α → Int) (a b : α) : α :=
  if k a > k b then a else b

/-- The step function of the min-selecting reduce callbacks
(`(a, b) => key(a) < key(b) ? a : b`), abstracted over the compared key. -/
def selMin (k : α → Int) (a b : α) : α :=
  if k a < k b then a else b

/-! ### General list lemmas used by the development -/

theorem set_getElem?_self {α : Type _} (l : List α) (i : Nat) (a : α)
    (h : l[i]? = some a) : l.set i a = l := by
  induction l generalizing i with
  | nil => simp at h
  | cons x l ih =>
    cases i with
    | zero => simp_all
    | succ i =>
      simp only [List.getElem?_cons_succ] at h
      simpa using ih i h

theorem mem_of_mem_set {α : Type _} {l : List α} {i : Nat} {a b : α}
    (h : b ∈ l.set i a) : b = a ∨ b ∈ l := by
  induction l generalizing i with
  | nil => simp at h
  | cons x l ih =>
    cases i with
    | zero =>
      rcases List.mem_cons.1 h with h | h
      · exact Or.inl h
      · exact Or.inr (List.mem_cons_of_mem _ h)
    | succ i =>
      rcases List.mem_cons.1 h with h | h
      · exact Or.inr (h ▸ List.mem_cons_self _ _)
      · rcases ih h with h | h
        · exact Or.inl h
        · exact Or.inr (List.mem_cons_of_mem _ h)

theorem nodup_set_of_fresh {α : Type _} {l : List α} {i : Nat} {a : α}
    (hnd : l.Nodup) (hfresh : ∀ j b, j ≠ i → l[j]? = some b → b ≠ a) :
    (l.set i a).Nodup := by
  induction l generalizing i with
  | nil => simp
  | cons x l ih =>
    rcases List.nodup_cons.1 hnd with ⟨hx, hl⟩
    cases i with
    | zero =>
      simp only [List.set_cons_zero]
      refine List.nodup_cons.2 ⟨?_, hl⟩
      intro hmem
      rcases List.mem_iff_get?.1 hmem with ⟨n, hn⟩
      rw [List.get?_eq_getElem?] at hn
      exact hfresh (n + 1) a (by simp) (by simpa using hn) rfl
    | succ i =>
      simp only [List.set_cons_succ]
      refine List.nodup_cons.2 ⟨?_, ?_⟩
      · intro hmem
        rcases mem_of_mem_set hmem with h | h
        · exact hfresh 0 x (by simp) (by simp) h
        · exact hx h
      · exact ih hl fun j b hj hb => hfresh (j + 1) b (by simpa using hj) (by simpa using hb)

theorem nodup_getElem?_inj {α : Type _} {l : List α} {i j : Nat} {a : α}
    (hnd : l.Nodup) (hi : l[i]? = some a) (hj : l[j]? = some a) : i = j := by
  induction l generalizing i j with
  | nil => simp at hi
  | cons x l ih =>
    rcases List.nodup_cons.1 hnd with ⟨hx, hl⟩
    cases i with
    | zero =>
      cases j with
      | zero => rfl
      | succ j =>
        simp only [List.getElem?_cons_zero, Option.some.injEq] at hi
        simp only [List.getElem?_cons_succ] at hj
        exact absurd (hi ▸ List.getElem?_mem hj) hx
    | succ i =>
      cases j with
      | zero =>
        simp only [List.getElem?_cons_zero, Option.some.injEq] at hj
        simp only [List.getElem?_cons_succ] at hi
        exact absurd (hj ▸ List.getElem?_mem hi) hx
      | succ j =>
        simp only [List.getElem?_cons_succ] at hi hj
        exact congrArg (· + 1) (ih hl hi hj)

/-! ### findIndex lemmas -/

theorem findIndex_eq_none_iff (p : α → Bool) (l : List α) :
    findIndex p l = none ↔ ∀ a ∈ l, ¬ p a := by
  induction l with
  | nil => simp [findIndex]
  | cons x l ih =>
    by_cases hx : p x
    · simp [findIndex, hx]
    · simp [findIndex, hx, ih]

theorem findIndex_some_spec (p : α → Bool) (l : List α) (i : Nat)
    (h : findIndex p l = some i) : ∃ a, l[i]? = some a ∧ p a = true := by
  induction l generalizing i with
  | nil => simp [findIndex] at h
  | cons x l ih =>
    by_cases hx : p x
    · simp only [findIndex, hx, if_true, Option.some.injEq] at h
      exact ⟨x, by simp [← h], hx⟩
    · rw [show findIndex p (x :: l) = (findIndex p l).map (· + 1) by
        simp [findIndex, hx]] at h
      rcases Option.map_eq_some'.1 h with ⟨j, hj, hji⟩
      rcases ih j hj with ⟨a, ha, hpa⟩
      exact ⟨a, by simp only [← hji]; simpa using ha, hpa⟩

theorem findIndex_eq_of_nodup_map {α β : Type _} [BEq β] [LawfulBEq β]
    (f : α → β) (v : β) (l : List α) (i : Nat) (a : α)
    (hnd : (l.map f).Nodup) (hget : l[i]? = some a) (hfa : f a = v) :
    findIndex (fun e => f e == v) l = some i := by
  induction l generalizing i with
  | nil => simp at hget
  | cons x l ih =>
    rw [List.map_cons, List.nodup_cons] at hnd
    rcases hnd with ⟨hx, hl⟩
    cases i with
    | zero =>
      simp only [List.getElem?_cons_zero, Option.some.injEq] at hget
      subst hget
      simp [findIndex, hfa]
    | succ i =>
      simp only [List.getElem?_cons_succ] at hget
      have hmem : a ∈ l := List.getElem?_mem hget
      have hne : ¬ (f x == v) = true := by
        intro hfx
        have hxa : f x = f a := by rw [eq_of_beq hfx, hfa]
        exact hx (by rw [hxa]; exact List.mem_map_of_mem f hmem)
      simp [findIndex, hne, ih i hl hget]

/-! ### Claim theorems: connection backoff, alert registry -/

/-- C8: the reconnect delay is a pure function of the attempt count: 0 ms
for attempt 0 and min(1000 * 2^n, 30000) ms for every n ≥ 1, giving
0, 2000, 4000, 8000 ms for attempts 0-3 and exactly 30000 ms for every
attempt count from 5 on. -/
theorem nextRetryDelay_policy :
    nextRetryDelayInMilliseconds 0 = 0 ∧
    (∀ n, 1 ≤ n →
      nextRetryDelayInMilliseconds n = min (1000 * 2 ^ n) 30000) ∧
    nextRetryDelayInMilliseconds 1 = 2000 ∧
    nextRetryDelayInMilliseconds 2 = 4000 ∧
    nextRetryDelayInMilliseconds 3 = 8000 ∧
    (∀ n, 5 ≤ n → nextRetryDelayInMilliseconds n = 30000) := by
  refine ⟨rfl, ?_, by decide, by decide, by decide, ?_⟩
  · intro n hn
    have : ¬ (n == 0) = true := by simp; omega
    simp [nextRetryDelayInMilliseconds, this]
  · intro n hn
    have h0 : ¬ (n == 0) = true := by simp; omega
    have hcap : 30000 ≤ 1000 * 2 ^ n := by
      have h32 : (32 : Nat) ≤ 2 ^ n :=
        le_trans (by norm_num) (Nat.pow_le_pow_right (by norm_num) hn)
      calc (30000 : Nat) ≤ 1000 * 32 := by norm_num
        _ ≤ 1000 * 2 ^ n := Nat.mul_le_mul_left 1000 h32
    simp [nextRetryDelayInMilliseconds, h0, min_eq_right hcap]

/-- C8 witness: the policy evaluated at attempts 7 and 9. -/
theorem nextRetryDelay_policy_witness :
    nextRetryDelayInMilliseconds 7 = min (1000 * 2 ^ 7) 30000 ∧
    nextRetryDelayInMilliseconds 9 = 30000 :=
  ⟨nextRetryDelay_policy.2.1 7 (by decide),
   nextRetryDelay_policy.2.2.2.2.2 9 (by decide)⟩

/-- C9: adding an alert whose id is already present anywhere in the
registry returns the registry unchanged; in particular an existing
acknowledged=true entry is never cleared or overwritten by a resend. -/
theorem addAlert_existing_id_noop (prev : List Alert) (alert : Alert)
    (h : ∃ a ∈ prev, a.id = alert.id) : addAlert prev alert = prev := by
  rcases h with ⟨a, ha, hid⟩
  cases hfind : prev.find? (fun b => b.id == alert.id) with
  | none =>
    exact absurd (by simpa using hid)
      (List.find?_eq_none.1 hfind a ha)
  | some b =>
    simp [addAlert, hfind]

/-- C9 witness: re-sending an already acknowledged alert id leaves the
registry, acknowledgement included, untouched. -/
theorem addAlert_existing_id_noop_witness :
    addAlert [⟨"a1", "hot", true, "t1"⟩] ⟨"a1", "hot again", false, "t2"⟩ =
      [⟨"a1", "hot", true, "t1"⟩] :=
  addAlert_existing_id_noop _ _ ⟨⟨"a1", "hot", true, "t1"⟩, by simp, rfl⟩

/-- C10: acknowledging an absent alert id is a no-op (not an error);
acknowledging in general rewrites each position pointwise, setting only the
acknowledged flag of entries whose id matches and leaving every other entry,
every other field, the length and the order unchanged. -/
theorem acknowledgeAlert_frame (prev : List Alert) (alertId : String) :
    ((∀ a ∈ prev, a.id ≠ alertId) → acknowledgeAlert prev alertId = prev) ∧
    (acknowledgeAlert prev alertId).length = prev.length ∧
    (∀ j : Nat, (acknowledgeAlert prev alertId)[j]? =
      (prev[j]?).map (fun a : Alert =>
        if a.id == alertId then { a with acknowledged := true } else a)) := by
  refine ⟨?_, by simp [acknowledgeAlert], ?_⟩
  · intro habs
    have : prev.map (fun alert =>
        if alert.id == alertId then { alert with acknowledged := true } else alert) =
        prev.map id := by
      refine List.map_congr_left fun a ha => ?_
      have : ¬ (a.id == alertId) = true := by simpa using habs a ha
      simp [this]
    simpa [acknowledgeAlert] using this
  · intro j
    simp [acknowledgeAlert, List.getElem?_map]

/-- C10 witness: the theorem applied to a concrete registry and an absent
id, and pointwise to a present id. -/
theorem acknowledgeAlert_frame_witness :
    acknowledgeAlert [⟨"a1", "hot", false, "t1"⟩] "zz" =
      [⟨"a1", "hot", false, "t1"⟩] ∧
    (acknowledgeAlert [⟨"a1", "hot", false, "t1"⟩] "a1")[0]? =
      some ⟨"a1", "hot", true, "t1"⟩ :=
  ⟨(acknowledgeAlert_frame [⟨"a1", "hot", false, "t1"⟩] "zz").1 (by decide),
   by
    have h := (acknowledgeAlert_frame [⟨"a1", "hot", false, "t1"⟩] "a1").2.2 0
    simpa using h⟩

/-- C2 counterexample: a streamed reading already in the buffer, colliding
with nothing in the fetched snapshot, is nevertheless gone after the
snapshot continuation runs: the code overwrites instead of merging. -/
theorem snapshot_overwrite_drops_streamed_reading :
    (⟨"s", "t9", 100, 10⟩ : MotorReading) ∈ [(⟨"s", "t9", 100, 10⟩ : MotorReading)] ∧
    (⟨"s", "t9", 100, 10⟩ : MotorReading).id ≠ (⟨"f", "t1", 200, 20⟩ : MotorReading).id ∧
    (⟨"s", "t9", 100, 10⟩ : MotorReading).timestamp ≠
      (⟨"f", "t1", 200, 20⟩ : MotorReading).timestamp ∧
    (⟨"s", "t9", 100, 10⟩ : MotorReading) ∉
      applySnapshot [⟨"f", "t1", 200, 20⟩] [⟨"s", "t9", 100, 10⟩] := by
  refine ⟨by simp, by decide, by decide, by decide⟩

/-- C2 amended: the snapshot continuation replaces the buffer wholesale
with the fetched list; whatever streamed readings the buffer already held
are discarded, with no merging or dedup against the fetched list. -/
theorem applySnapshot_replaces_buffer (data old : List MotorReading) :
    applySnapshot data old = data ∧
    (∀ x : MotorReading, x ∈ applySnapshot data old ↔ x ∈ data) :=
  ⟨rfl, fun _ => Iff.rfl⟩

/-! ### Capacity bound -/

theorem upsert_length_le (b : List MotorReading) (x : MotorReading) (c : Nat)
    (h : b.length ≤ c) : (upsert b x c).length ≤ c := by
  unfold upsert
  cases h1 : findIndex (fun e => e.id == x.id) b with
  | some i => simpa using h
  | none =>
    cases h2 : findIndex (fun e => e.timestamp == x.timestamp) b with
    | some j => simpa using h
    | none =>
      rw [List.length_take]
      exact min_le_left _ _

/-- C5: for every sequence of upsert calls starting from a buffer within
capacity, the buffer length never exceeds the capacity. -/
theorem upserts_length_le_capacity (c : Nat) (xs : List MotorReading) :
    ∀ b : List MotorReading, b.length ≤ c → (upserts c b xs).length ≤ c := by
  induction xs with
  | nil =>
    intro b h
    simpa [upserts] using h
  | cons x xs ih =>
    intro b h
    exact ih (upsert b x c) (upsert_length_le b x c h)

/-- C5 witness: three upserts (an id replacement, a timestamp replacement
and a novel insertion) at capacity 2. -/
theorem upserts_length_le_capacity_witness :
    (upserts 2 [⟨"1", "t10", 0, 0⟩, ⟨"2", "t20", 0, 0⟩]
      [⟨"1", "t11", 1, 1⟩, ⟨"9", "t20", 2, 2⟩, ⟨"7", "t70", 3, 3⟩]).length ≤ 2 :=
  upserts_length_le_capacity 2 _ _ (by decide)

/-- C4 counterexample: from a buffer within the bound (here the empty
buffer, maxReadings = 1), the snapshot replacement installs the fetched
list untruncated, so a 2-element snapshot breaks length ≤ maxReadings. -/
theorem snapshot_length_exceeds_capacity :
    ([] : List MotorReading).length ≤ 1 ∧
    ¬ ((applySnapshot [⟨"1", "t1", 0, 0⟩, ⟨"2", "t2", 0, 0⟩]
        ([] : List MotorReading)).length ≤ 1) := by
  decide

/-- C4 amended: length ≤ maxReadings is preserved by every upsert, but the
snapshot replacement installs the fetched list as is: its length is the
fetched length, which is not truncated to maxReadings. -/
theorem upsert_bound_snapshot_unbounded (b d : List MotorReading)
    (x : MotorReading) (c : Nat) (h : b.length ≤ c) :
    (upsert b x c).length ≤ c ∧ (applySnapshot d b).length = d.length :=
  ⟨upsert_length_le b x c h, rfl⟩

/-- C4 amended witness: one upsert at capacity 1, and a snapshot of
length 2 landing on the same buffer. -/
theorem upsert_bound_snapshot_unbounded_witness :
    (upsert [⟨"1", "t1", 0, 0⟩] ⟨"2", "t2", 0, 0⟩ 1).length ≤ 1 ∧
    (applySnapshot [⟨"1", "t1", 0, 0⟩, ⟨"2", "t2", 0, 0⟩]
      [⟨"1", "t1", 0, 0⟩]).length = 2 :=
  upsert_bound_snapshot_unbounded [⟨"1", "t1", 0, 0⟩] _ _ 1 (by decide)

/-! ### The two replacement branches and the novel-insertion branch -/

/-- C6: when the incoming reading's id matches the entry at index i of a
buffer with pairwise-distinct ids, the upsert is exactly the in-place
replacement at i: the length and every other position are unchanged. -/
theorem upsert_id_match_replaces_in_place (b : List MotorReading)
    (x a : MotorReading) (c i : Nat)
    (hu : idsUnique b) (hget : b[i]? = some a) (hid : a.id = x.id) :
    upsert b x c = b.set i x ∧
    (upsert b x c).length = b.length ∧
    (upsert b x c)[i]? = some x ∧
    (∀ j : Nat, j ≠ i → (upsert b x c)[j]? = b[j]?) := by
  have hfi : findIndex (fun e => e.id == x.id) b = some i :=
    findIndex_eq_of_nodup_map MotorReading.id x.id b i a hu hget hid
  have hlt : i < b.length := by
    rcases List.getElem?_eq_some.1 hget with ⟨h, _⟩
    exact h
  have heq : upsert b x c = b.set i x := by
    unfold upsert
    rw [hfi]
  refine ⟨heq, by simp [heq], ?_, ?_⟩
  · rw [heq]
    exact List.getElem?_set_self (by simpa using hlt)
  · intro j hj
    rw [heq]
    exact List.getElem?_set_ne hj.symm

/-- C6 witness: buffer [A(id=1,t=10), B(id=2,t=20)], incoming
A2(id=1,t=15) replaces index 0 in place. -/
theorem upsert_id_match_replaces_in_place_witness :
    upsert [⟨"1", "t10", 0, 0⟩, ⟨"2", "t20", 0, 0⟩] ⟨"1", "t15", 5, 5⟩ 100 =
      [⟨"1", "t15", 5, 5⟩, ⟨"2", "t20", 0, 0⟩] := by
  have h := (upsert_id_match_replaces_in_place
    [⟨"1", "t10", 0, 0⟩, ⟨"2", "t20", 0, 0⟩] ⟨"1", "t15", 5, 5⟩
    ⟨"1", "t10", 0, 0⟩ 100 0 (by decide) (by decide) rfl).1
  simpa using h

/-- C7: an incoming reading matching no existing id and no existing
timestamp is prepended and the result truncated to the first capacity
elements; the evicted part is exactly the tail beyond capacity. -/
theorem upsert_novel_prepends_truncates (b : List MotorReading)
    (x : MotorReading) (c : Nat)
    (hid : ∀ e ∈ b, e.id ≠ x.id) (hts : ∀ e ∈ b, e.timestamp ≠ x.timestamp) :
    upsert b x c = (x :: b).take c ∧
    upsert b x c ++ (x :: b).drop c = x :: b := by
  have h1 : findIndex (fun e => e.id == x.id) b = none :=
    (findIndex_eq_none_iff _ _).2 fun a ha => by simpa using hid a ha
  have h2 : findIndex (fun e => e.timestamp == x.timestamp) b = none :=
    (findIndex_eq_none_iff _ _).2 fun a ha => by simpa using hts a ha
  have heq : upsert b x c = (x :: b).take c := by
    unfold upsert
    rw [h1, h2]
  refine ⟨heq, ?_⟩
  rw [heq]
  exact List.take_append_drop c (x :: b)

/-- C7 witness: the spec example — capacity 2, buffer [B, A], novel C
yields [C, B], with A evicted. -/
theorem upsert_novel_prepends_truncates_witness :
    upsert [⟨"2", "t20", 0, 0⟩, ⟨"1", "t10", 0, 0⟩] ⟨"3", "t30", 0, 0⟩ 2 =
      [⟨"3", "t30", 0, 0⟩, ⟨"2", "t20", 0, 0⟩] := by
  have h := (upsert_novel_prepends_truncates
    [⟨"2", "t20", 0, 0⟩, ⟨"1", "t10", 0, 0⟩] ⟨"3", "t30", 0, 0⟩ 2
    (by decide) (by decide)).1
  simpa using h

/-! ### Dedup invariants of the reading buffer -/

theorem upsert_eq_of_id_found {b : List MotorReading} {x : MotorReading}
    {c i : Nat} (h : findIndex (fun e => e.id == x.id) b = some i) :
    upsert b x c = b.set i x := by
  unfold upsert
  rw [h]

theorem upsert_eq_of_ts_found {b : List MotorReading} {x : MotorReading}
    {c j : Nat} (h1 : findIndex (fun e => e.id == x.id) b = none)
    (h2 : findIndex (fun e => e.timestamp == x.timestamp) b = some j) :
    upsert b x c = b.set j x := by
  unfold upsert
  rw [h1, h2]

theorem upsert_eq_of_novel {b : List MotorReading} {x : MotorReading}
    {c : Nat} (h1 : findIndex (fun e => e.id == x.id) b = none)
    (h2 : findIndex (fun e => e.timestamp == x.timestamp) b = none) :
    upsert b x c = (x :: b).take c := by
  unfold upsert
  rw [h1, h2]

theorem upsert_idsUnique (b : List MotorReading) (x : MotorReading) (c : Nat)
    (hu : idsUnique b) : idsUnique (upsert b x c) := by
  cases h1 : findIndex (fun e => e.id == x.id) b with
  | some i =>
    rcases findIndex_some_spec _ _ _ h1 with ⟨a, hget, hpa⟩
    have hid : a.id = x.id := by simpa using hpa
    rw [upsert_eq_of_id_found h1]
    show ((b.set i x).map MotorReading.id).Nodup
    rw [List.map_set]
    rw [set_getElem?_self _ _ _ (by rw [List.getElem?_map, hget]; simp [hid])]
    exact hu
  | none =>
    have hidfresh : ∀ e ∈ b, e.id ≠ x.id := fun e he => by
      simpa using (findIndex_eq_none_iff _ _).1 h1 e he
    cases h2 : findIndex (fun e => e.timestamp == x.timestamp) b with
    | some j =>
      rw [upsert_eq_of_ts_found h1 h2]
      show ((b.set j x).map MotorReading.id).Nodup
      rw [List.map_set]
      refine nodup_set_of_fresh hu ?_
      intro k s hk hs
      rcases Option.map_eq_some'.1 (by simpa [List.getElem?_map] using hs)
        with ⟨e, he, rfl⟩
      exact hidfresh e (List.getElem?_mem he)
    | none =>
      rw [upsert_eq_of_novel h1 h2]
      show (((x :: b).take c).map MotorReading.id).Nodup
      rw [List.map_take]
      refine List.Nodup.sublist (List.take_sublist _ _) ?_
      rw [List.map_cons]
      refine List.nodup_cons.2 ⟨?_, hu⟩
      intro hmem
      rcases List.mem_map.1 hmem with ⟨e, he, heq⟩
      exact hidfresh e he heq

theorem upsert_timestampsUnique (b : List MotorReading) (x : MotorReading)
    (c : Nat) (hu : idsUnique b) (ht : timestampsUnique b) (hg : goodStep b x) :
    timestampsUnique (upsert b x c) := by
  cases h1 : findIndex (fun e => e.id == x.id) b with
  | some i =>
    rcases findIndex_some_spec _ _ _ h1 with ⟨a, hget, hpa⟩
    have hid : a.id = x.id := by simpa using hpa
    have hcond : ∀ e ∈ b, e.id ≠ x.id → e.timestamp ≠ x.timestamp :=
      hg ⟨a, List.getElem?_mem hget, hid⟩
    rw [upsert_eq_of_id_found h1]
    show ((b.set i x).map MotorReading.timestamp).Nodup
    rw [List.map_set]
    refine nodup_set_of_fresh ht ?_
    intro k s hk hs
    rcases Option.map_eq_some'.1 (by simpa [List.getElem?_map] using hs)
      with ⟨e, he, rfl⟩
    by_cases hcase : e.id = x.id
    · exfalso
      refine hk (nodup_getElem?_inj (a := x.id) hu ?_ ?_)
      · rw [List.getElem?_map, he]
        simp [hcase]
      · rw [List.getElem?_map, hget]
        simp [hid]
    · exact hcond e (List.getElem?_mem he) hcase
  | none =>
    cases h2 : findIndex (fun e => e.timestamp == x.timestamp) b with
    | some j =>
      rcases findIndex_some_spec _ _ _ h2 with ⟨a, hget, hpa⟩
      have hts : a.timestamp = x.timestamp := by simpa using hpa
      rw [upsert_eq_of_ts_found h1 h2]
      show ((b.set j x).map MotorReading.timestamp).Nodup
      rw [List.map_set]
      rw [set_getElem?_self _ _ _ (by rw [List.getElem?_map, hget]; simp [hts])]
      exact ht
    | none =>
      have htsfresh : ∀ e ∈ b, e.timestamp ≠ x.timestamp := fun e he => by
        simpa using (findIndex_eq_none_iff _ _).1 h2 e he
      rw [upsert_eq_of_novel h1 h2]
      show (((x :: b).take c).map MotorReading.timestamp).Nodup
      rw [List.map_take]
      refine List.Nodup.sublist (List.take_sublist _ _) ?_
      rw [List.map_cons]
      refine List.nodup_cons.2 ⟨?_, ht⟩
      intro hmem
      rcases List.mem_map.1 hmem with ⟨e, he, heq⟩
      exact htsfresh e he heq

theorem upserts_idsUnique (c : Nat) (xs : List MotorReading) :
    ∀ b, idsUnique b → idsUnique (upserts c b xs) := by
  induction xs with
  | nil => exact fun b hu => hu
  | cons x xs ih => exact fun b hu => ih (upsert b x c) (upsert_idsUnique b x c hu)

theorem upserts_timestampsUnique (c : Nat) (xs : List MotorReading) :
    ∀ b, idsUnique b → timestampsUnique b → goodSeq c b xs →
      timestampsUnique (upserts c b xs) := by
  induction xs with
  | nil => exact fun b _ ht _ => ht
  | cons x xs ih =>
    intro b hu ht hg
    obtain ⟨hg1, hg2⟩ : goodStep b x ∧ goodSeq c (upsert b x c) xs := hg
    exact ih (upsert b x c) (upsert_idsUnique b x c hu)
      (upsert_timestampsUnique b x c hu ht hg1) hg2

/-- C1 counterexample: from the empty buffer, upserting A(id=1,t=t10),
B(id=2,t=t20) and then X(id=1,t=t20) routes X through the id-match branch,
leaving two entries with timestamp t20 in the buffer. -/
theorem upsert_sequence_duplicate_timestamp :
    ¬ timestampsUnique
      (upserts 100 []
        [⟨"1", "t10", 0, 0⟩, ⟨"2", "t20", 0, 0⟩, ⟨"1", "t20", 1, 1⟩]) := by
  decide

/-- C1 amended: for every sequence of upserts from the empty buffer, at
most one reading per id always holds; at most one reading per timestamp
additionally holds provided no upsert whose id matches an existing entry
carries the timestamp of a different existing entry (the situation
of the counterexample). -/
theorem upserts_id_unique_timestamp_conditional (c : Nat)
    (xs : List MotorReading) :
    idsUnique (upserts c [] xs) ∧
    (goodSeq c [] xs → timestampsUnique (upserts c [] xs)) :=
  ⟨upserts_idsUnique c xs [] List.nodup_nil,
   fun hg => upserts_timestampsUnique c xs [] List.nodup_nil List.nodup_nil hg⟩

/-- C1 amended witness: a stream whose id-matched replacement carries a
fresh timestamp keeps both uniqueness properties. -/
theorem upserts_id_unique_timestamp_conditional_witness :
    idsUnique (upserts 100 []
      [⟨"1", "t10", 0, 0⟩, ⟨"2", "t20", 0, 0⟩, ⟨"1", "t15", 1, 1⟩]) ∧
    timestampsUnique (upserts 100 []
      [⟨"1", "t10", 0, 0⟩, ⟨"2", "t20", 0, 0⟩, ⟨"1", "t15", 1, 1⟩]) :=
  ⟨(upserts_id_unique_timestamp_conditional 100 _).1,
   (upserts_id_unique_timestamp_conditional 100 _).2 (by decide)⟩

/-! ### Derived extrema: the reduce callbacks pick the LAST of tied values -/

theorem foldl_selMax_spec {α : Type _} (k : α → Int) (a : α) (l : List α) :
    ∃ i : Nat, (a :: l)[i]? = some (l.foldl (selMax k) a) ∧
      (∀ j : Nat, ∀ b, (a :: l)[j]? = some b →
        k b ≤ k (l.foldl (selMax k) a)) ∧
      (∀ j : Nat, ∀ b, i < j → (a :: l)[j]? = some b →
        k b < k (l.foldl (selMax k) a)) := by
  induction l using List.reverseRecOn with
  | nil =>
    refine ⟨0, by simp, ?_, ?_⟩
    · intro j b hj
      cases j with
      | zero =>
        have hab : a = b := by simpa using hj
        subst hab
        simp
      | succ j => simp at hj
    · intro j b hij hj
      cases j with
      | zero => omega
      | succ j => simp at hj
  | append_singleton l x ih =>
    rcases ih with ⟨i, hi, hmax, hlast⟩
    have hfold : (l ++ [x]).foldl (selMax k) a = selMax k (l.foldl (selMax k) a) x := by
      rw [List.foldl_append]
      rfl
    have hcons : a :: (l ++ [x]) = (a :: l) ++ [x] := rfl
    by_cases hgt : k (l.foldl (selMax k) a) > k x
    · have hres : (l ++ [x]).foldl (selMax k) a = l.foldl (selMax k) a := by
        rw [hfold]
        simp [selMax, hgt]
      rcases List.getElem?_eq_some.1 hi with ⟨hilt, _⟩
      refine ⟨i, ?_, ?_, ?_⟩
      · rw [hres, hcons, List.getElem?_append_left hilt]
        exact hi
      · intro j b hj
        rw [hres]
        rw [hcons] at hj
        by_cases hjn : j < (a :: l).length
        · rw [List.getElem?_append_left hjn] at hj
          exact hmax j b hj
        · rw [List.getElem?_append_right (le_of_not_lt hjn)] at hj
          cases hd : j - (a :: l).length with
          | zero =>
            rw [hd] at hj
            have hxb : x = b := by simpa using hj
            subst hxb
            exact le_of_lt hgt
          | succ m =>
            rw [hd] at hj
            simp at hj
      · intro j b hij hj
        rw [hres]
        rw [hcons] at hj
        by_cases hjn : j < (a :: l).length
        · rw [List.getElem?_append_left hjn] at hj
          exact hlast j b hij hj
        · rw [List.getElem?_append_right (le_of_not_lt hjn)] at hj
          cases hd : j - (a :: l).length with
          | zero =>
            rw [hd] at hj
            have hxb : x = b := by simpa using hj
            subst hxb
            exact hgt
          | succ m =>
            rw [hd] at hj
            simp at hj
    · have hres : (l ++ [x]).foldl (selMax k) a = x := by
        rw [hfold]
        simp [selMax, hgt]
      have hle : k (l.foldl (selMax k) a) ≤ k x := le_of_not_lt hgt
      refine ⟨(a :: l).length, ?_, ?_, ?_⟩
      · rw [hres, hcons]
        exact List.getElem?_concat_length _ _
      · intro j b hj
        rw [hres]
        rw [hcons] at hj
        by_cases hjn : j < (a :: l).length
        · rw [List.getElem?_append_left hjn] at hj
          exact le_trans (hmax j b hj) hle
        · rw [List.getElem?_append_right (le_of_not_lt hjn)] at hj
          cases hd : j - (a :: l).length with
          | zero =>
            rw [hd] at hj
            have hxb : x = b := by simpa using hj
            subst hxb
            exact le_refl _
          | succ m =>
            rw [hd] at hj
            simp at hj
      · intro j b hij hj
        rw [hcons] at hj
        by_cases hjn : j < (a :: l).length
        · omega
        · rw [List.getElem?_append_right (le_of_not_lt hjn)] at hj
          cases hd : j - (a :: l).length with
          | zero => omega
          | succ m =>
            rw [hd] at hj
            simp at hj

theorem selMin_eq_selMax_neg {α : Type _} (k : α → Int) :
    selMin k = selMax (fun y => -(k y)) := by
  funext a b
  simp only [selMin, selMax, gt_iff_lt, neg_lt_neg_iff]

theorem foldl_selMin_spec {α : Type _} (k : α → Int) (a : α) (l : List α) :
    ∃ i : Nat, (a :: l)[i]? = some (l.foldl (selMin k) a) ∧
      (∀ j : Nat, ∀ b, (a :: l)[j]? = some b →
        k (l.foldl (selMin k) a) ≤ k b) ∧
      (∀ j : Nat, ∀ b, i < j → (a :: l)[j]? = some b →
        k (l.foldl (selMin k) a) < k b) := by
  have h := foldl_selMax_spec (fun y => -(k y)) a l
  rw [← selMin_eq_selMax_neg k] at h
  rcases h with ⟨i, hi, hmax, hlast⟩
  refine ⟨i, hi, ?_, ?_⟩
  · intro j b hj
    have h2 : -(k b) ≤ -(k (l.foldl (selMin k) a)) := hmax j b hj
    omega
  · intro j b hij hj
    have h2 : -(k b) < -(k (l.foldl (selMin k) a)) := hlast j b hij hj
    omega

/-- C3 counterexample: over the buffer [{temp 90}, {temp 20}, {temp 90}]
the reduce callback keeps the incoming element on ties, so highestTemp is
the LAST of the two 90-entries, not the first as the claim states. -/
theorem highestTemp_tie_not_first :
    highestTemp [⟨"1", "tt1", 1000, 90⟩, ⟨"2", "tt2", 2000, 20⟩,
      ⟨"3", "tt3", 3000, 90⟩] = some ⟨"3", "tt3", 3000, 90⟩ ∧
    highestTemp [⟨"1", "tt1", 1000, 90⟩, ⟨"2", "tt2", 2000, 20⟩,
      ⟨"3", "tt3", 3000, 90⟩] ≠ some ⟨"1", "tt1", 1000, 90⟩ := by
  decide

/-- C3 amended: for every non-empty buffer, each derived extremum is a
reading attaining the extremal value, and when several readings tie on that
value the one LAST encountered in buffer order (closest to the back, i.e.
the oldest of the tied values) is returned: the returned reading occurs at
an index after which every entry is strictly worse. -/
theorem extrema_attain_last_tie (l : List MotorReading) (hne : l ≠ []) :
    (∃ rM, highestTemp l = some rM ∧ ∃ i : Nat, l[i]? = some rM ∧
      (∀ j : Nat, ∀ b, l[j]? = some b → b.temperature ≤ rM.temperature) ∧
      (∀ j : Nat, ∀ b, i < j → l[j]? = some b →
        b.temperature < rM.temperature)) ∧
    (∃ rm, lowestTemp l = some rm ∧ ∃ i : Nat, l[i]? = some rm ∧
      (∀ j : Nat, ∀ b, l[j]? = some b → rm.temperature ≤ b.temperature) ∧
      (∀ j : Nat, ∀ b, i < j → l[j]? = some b →
        rm.temperature < b.temperature)) ∧
    (∃ sM, highestRpm l = some sM ∧ ∃ i : Nat, l[i]? = some sM ∧
      (∀ j : Nat, ∀ b, l[j]? = some b → b.speed ≤ sM.speed) ∧
      (∀ j : Nat, ∀ b, i < j → l[j]? = some b → b.speed < sM.speed)) ∧
    (∃ sm, lowestRpm l = some sm ∧ ∃ i : Nat, l[i]? = some sm ∧
      (∀ j : Nat, ∀ b, l[j]? = some b → sm.speed ≤ b.speed) ∧
      (∀ j : Nat, ∀ b, i < j → l[j]? = some b → sm.speed < b.speed)) := by
  cases l with
  | nil => exact absurd rfl hne
  | cons a rest =>
    refine ⟨?_, ?_, ?_, ?_⟩
    · rcases foldl_selMax_spec MotorReading.temperature a rest
        with ⟨i, hi, hmax, hlast⟩
      exact ⟨rest.foldl (selMax MotorReading.temperature) a, rfl, i, hi, hmax, hlast⟩
    · rcases foldl_selMin_spec MotorReading.temperature a rest
        with ⟨i, hi, hmin, hlast⟩
      exact ⟨rest.foldl (selMin MotorReading.temperature) a, rfl, i, hi, hmin, hlast⟩
    · rcases foldl_selMax_spec MotorReading.speed a rest
        with ⟨i, hi, hmax, hlast⟩
      exact ⟨rest.foldl (selMax MotorReading.speed) a, rfl, i, hi, hmax, hlast⟩
    · rcases foldl_selMin_spec MotorReading.speed a rest
        with ⟨i, hi, hmin, hlast⟩
      exact ⟨rest.foldl (selMin MotorReading.speed) a, rfl, i, hi, hmin, hlast⟩

/-- C3 amended witness: the amended property instantiated at the example
buffer [{temp 90}, {temp 20}, {temp 90}]. -/
theorem extrema_attain_last_tie_witness :
    (∃ rM, highestTemp [⟨"1", "tt1", 1000, 90⟩, ⟨"2", "tt2", 2000, 20⟩,
        ⟨"3", "tt3", 3000, 90⟩] = some rM ∧
      ∃ i : Nat, [(⟨"1", "tt1", 1000, 90⟩ : MotorReading), ⟨"2", "tt2", 2000, 20⟩,
        ⟨"3", "tt3", 3000, 90⟩][i]? = some rM ∧
      (∀ j : Nat, ∀ b, [(⟨"1", "tt1", 1000, 90⟩ : MotorReading), ⟨"2", "tt2", 2000, 20⟩,
        ⟨"3", "tt3", 3000, 90⟩][j]? = some b → b.temperature ≤ rM.temperature) ∧
      (∀ j : Nat, ∀ b, i < j → [(⟨"1", "tt1", 1000, 90⟩ : MotorReading),
        ⟨"2", "tt2", 2000, 20⟩, ⟨"3", "tt3", 3000, 90⟩][j]? = some b →
        b.temperature < rM.temperature)) ∧
    (∃ rm, lowestTemp [⟨"1", "tt1", 1000, 90⟩, ⟨"2", "tt2", 2000, 20⟩,
        ⟨"3", "tt3", 3000, 90⟩] = some rm ∧
      ∃ i : Nat, [(⟨"1", "tt1", 1000, 90⟩ : MotorReading), ⟨"2", "tt2", 2000, 20⟩,
        ⟨"3", "tt3", 3000, 90⟩][i]? = some rm ∧
      (∀ j : Nat, ∀ b, [(⟨"1", "tt1", 1000, 90⟩ : MotorReading), ⟨"2", "tt2", 2000, 20⟩,
        ⟨"3", "tt3", 3000, 90⟩][j]? = some b → rm.temperature ≤ b.temperature) ∧
      (∀ j : Nat, ∀ b, i < j → [(⟨"1", "tt1", 1000, 90⟩ : MotorReading),
        ⟨"2", "tt2", 2000, 20⟩, ⟨"3", "tt3", 3000, 90⟩][j]? = some b →
        rm.temperature < b.temperature)) ∧
    (∃ sM, highestRpm [⟨"1", "tt1", 1000, 90⟩, ⟨"2", "tt2", 2000, 20⟩,
        ⟨"3", "tt3", 3000, 90⟩] = some sM ∧
      ∃ i : Nat, [(⟨"1", "tt1", 1000, 90⟩ : MotorReading), ⟨"2", "tt2", 2000, 20⟩,
        ⟨"3", "tt3", 3000, 90⟩][i]? = some sM ∧
      (∀ j : Nat, ∀ b, [(⟨"1", "tt1", 1000, 90⟩ : MotorReading), ⟨"2", "tt2", 2000, 20⟩,
        ⟨"3", "tt3", 3000, 90⟩][j]? = some b → b.speed ≤ sM.speed) ∧
      (∀ j : Nat, ∀ b, i < j → [(⟨"1", "tt1", 1000, 90⟩ : MotorReading),
        ⟨"2", "tt2", 2000, 20⟩, ⟨"3", "tt3", 3000, 90⟩][j]? = some b →
        b.speed < sM.speed)) ∧
    (∃ sm, lowestRpm [⟨"1", "tt1", 1000, 90⟩, ⟨"2", "tt2", 2000, 20⟩,
        ⟨"3", "tt3", 3000, 90⟩] = some sm ∧
      ∃ i : Nat, [(⟨"1", "tt1", 1000, 90⟩ : MotorReading), ⟨"2", "tt2", 2000, 20⟩,
        ⟨"3", "tt3", 3000, 90⟩][i]? = some sm ∧
      (∀ j : Nat, ∀ b, [(⟨"1", "tt1", 1000, 90⟩ : MotorReading), ⟨"2", "tt2", 2000, 20⟩,
        ⟨"3", "tt3", 3000, 90⟩][j]? = some b → sm.speed ≤ b.speed) ∧
      (∀ j : Nat, ∀ b, i < j → [(⟨"1", "tt1", 1000, 90⟩ : MotorReading),
        ⟨"2", "tt2", 2000, 20⟩, ⟨"3", "tt3", 3000, 90⟩][j]? = some b →
        sm.speed < b.speed)) :=
  extrema_attain_last_tie
    [⟨"1", "tt1", 1000, 90⟩, ⟨"2", "tt2", 2000, 20⟩, ⟨"3", "tt3", 3000, 90⟩]
    (by decide)
